import Mathlib

/-!
Verification of kurenaif/super-cd (src/main.rs).

The program is a terminal input box: characters typed are appended to an
input buffer (`app.input`), Enter commits the buffer as a new entry of the
message history (`app.messages`), Backspace pops the last character, 'q'
breaks the foreground loop.  The `util::event` module (declared `mod util`
in src/main.rs but not present under src/) supplies the event multiplexer;
where a claim depends on it, it is modelled from the spec and marked so.

Strings are embedded as `List Char`; the buffer and the history are the two
fields of `App`, mirroring the Rust `App` struct (the `Arc<Mutex<_>>`
wrappers serialize access and are transparent to the sequential semantics
of the single foreground loop).
-/

/-- Keyboard keys, after `termion::event::Key` (the variants matched or
falling to the wildcard arm in src/main.rs lines 121-135). -/
inductive Key where
  | Char (c : Char)
  | Backspace
  | Left
  | Right
  | Up
  | Down
  | Home
  | End
  | PageUp
  | PageDown
  | BackTab
  | Delete
  | Insert
  | F (n : Nat)
  | Alt (c : Char)
  | Ctrl (c : Char)
  | Null
  | Esc
  deriving DecidableEq, Repr

/-- Events delivered by `util::event::Events` to the foreground loop:
either a decoded keypress or a timer tick. -/
inductive Event where
  | Input (k : Key)
  | Tick
  deriving DecidableEq, Repr

/-- The Rust `App` struct: current value of the input box, and the history
of recorded messages. -/
structure App where
  input : List Char
  messages : List (List Char)
  deriving DecidableEq, Repr

/-- `App::default()`: both fields start empty. -/
def App.default : App := ⟨[], []⟩

/-- Result of one pass of the `match events.next()?` block: either the loop
continues with an updated state, or `break` was executed ('q'). -/
inductive StepResult where
  | Continue (a : App)
  | Break (a : App)
  deriving DecidableEq, Repr

/-- The application state carried by a `StepResult`. -/
def StepResult.state : StepResult → App
  | .Continue a => a
  | .Break a => a

/-- One pass of the `Handle input` match in `render` (src/main.rs lines
119-136), with the Rust match arms tried in source order:
`Key::Char('q')` breaks, `Key::Char('\n')` pushes
`app_input.drain(..).collect()` onto `app_messages`, `Key::Char(c)` pushes
`c` onto `app_input`, `Key::Backspace` pops `app_input`, and every other
key or event falls to a wildcard arm that does nothing. -/
def handleInput (a : App) : Event → StepResult
  | .Input (.Char c) =>
    if c = 'q' then .Break a
    else if c = '\n' then .Continue ⟨[], a.messages ++ [a.input]⟩
    else .Continue ⟨a.input ++ [c], a.messages⟩
  | .Input .Backspace => .Continue ⟨a.input.dropLast, a.messages⟩
  | .Input _ => .Continue a
  | .Tick => .Continue a

/-- The foreground loop of `render`, run over a finite prefix of the events
delivered by `events.next()`: fold `handleInput` left to right, stopping at
the first `break`.  Returns the final state and whether the loop exited via
`break` (the events after the `break` are never processed).  -/
def runEvents (a : App) : List Event → App × Bool
  | [] => (a, false)
  | e :: es =>
    match handleInput a e with
    | .Continue a2 => runEvents a2 es
    | .Break a2 => (a2, true)

/-- The keypress events for a list of characters. -/
def charEvents (cs : List Char) : List Event :=
  cs.map (fun c => Event.Input (Key.Char c))

/-- Outcome of the `render` function as a whole: `errExit` when
`events.next()?` propagated an input-source failure out of `render`,
`okExit` when the loop broke on 'q' and `render` returned `Ok(())`,
`pending` when the supplied finite list of `next()` results is exhausted
with the loop still running. -/
inductive RenderOutcome where
  | okExit
  | errExit
  | pending (a : App)
  deriving DecidableEq, Repr

/-- The `render` loop over a finite prefix of `events.next()` results, each
an `Except` mirroring the Rust `Result`: an `Except.error` makes
`events.next()?` return the failure from `render` (src/main.rs line 120);
otherwise the event is handled as in `handleInput`. -/
def renderLoop (a : App) : List (Except Unit Event) → RenderOutcome
  | [] => .pending a
  | .error _ :: _ => .errExit
  | .ok e :: rest =>
    match handleInput a e with
    | .Continue a2 => renderLoop a2 rest
    | .Break _ => .okExit

/-- The tail of `main` (src/main.rs lines 163-167): `render(app);` is
called with its `Result` discarded, and `main` then returns `Ok(())` — the
process exit status does not depend on the outcome of `render`.  Logging
setup is omitted (I/O collaborator with no control logic). -/
def mainRun (nexts : List (Except Unit Event)) : Except Unit Unit :=
  let _ := renderLoop App.default nexts
  Except.ok ()

/-- Modelled from the spec: the `util::event` module is declared in
src/main.rs (`mod util`) but absent from src/.  Per spec §4.1 both
producers write into one shared ordered channel and `next()` reads the
oldest unread event; the channel is a FIFO queue of events in arrival
order. -/
structure Channel where
  queue : List Event
  deriving DecidableEq, Repr

/-- Modelled from the spec: the channel starts empty. -/
def Channel.empty : Channel := ⟨[]⟩

/-- Modelled from the spec: a producer appends its event at the channel
tail (arrival order). -/
def Channel.send (ch : Channel) (e : Event) : Channel := ⟨ch.queue ++ [e]⟩

/-- A sequence of producer sends, in production (wall-clock arrival)
order. -/
def Channel.sendAll (ch : Channel) (es : List Event) : Channel :=
  es.foldl Channel.send ch

/-- Modelled from the spec: `Events::next()` reads the oldest unread event
from the channel, or blocks (no value) when the channel is empty. -/
def Channel.next (ch : Channel) : Option (Event × Channel) :=
  match ch.queue with
  | [] => none
  | e :: es => some (e, ⟨es⟩)

/-- The full sequence of events obtained by calling `next()` until the
channel is exhausted. -/
def Channel.drainAll : Channel → List Event
  | ⟨[]⟩ => []
  | ⟨e :: es⟩ => e :: Channel.drainAll ⟨es⟩

/-! ### Helper lemmas -/

theorem Channel.sendAll_queue (es : List Event) (ch : Channel) :
    (Channel.sendAll ch es).queue = ch.queue ++ es := by
  induction es generalizing ch with
  | nil => simp [Channel.sendAll]
  | cons e es ih =>
      simp [Channel.sendAll] at ih ⊢
      rw [ih]
      simp [Channel.send]

theorem Channel.drainAll_queue (q : List Event) :
    Channel.drainAll ⟨q⟩ = q := by
  induction q with
  | nil => simp [Channel.drainAll]
  | cons e es ih => simp [Channel.drainAll, ih]

theorem Channel.drainAll_eq (ch : Channel) : ch.drainAll = ch.queue :=
  Channel.drainAll_queue ch.queue

theorem runEvents_quit (a : App) (rest : List Event) :
    runEvents a (Event.Input (Key.Char 'q') :: rest) = (a, true) := by
  simp [runEvents, handleInput]

/-! ### Claims -/

/-- C1: processing the newline key commits the buffer: from any state with
buffer B and history H the new state has history `H ++ [B]` and an empty
buffer; in particular committing an empty buffer appends an empty entry. -/
theorem commit_appends_buffer (a : App) (h : List (List Char)) :
    handleInput a (Event.Input (Key.Char '\n')) =
      StepResult.Continue ⟨[], a.messages ++ [a.input]⟩ ∧
    handleInput ⟨[], h⟩ (Event.Input (Key.Char '\n')) =
      StepResult.Continue ⟨[], h ++ [[]]⟩ := by
  constructor <;> simp [handleInput]

/-- C2: a sequence of character keypresses that commits nothing (no
newline) and does not quit (no 'q') leaves the history unchanged, the loop
running, and the buffer equal to the starting buffer followed by the
pressed characters in order. -/
theorem push_chars_concat (a : App) (cs : List Char)
    (h : ∀ c ∈ cs, c ≠ 'q' ∧ c ≠ '\n') :
    runEvents a (charEvents cs) = (⟨a.input ++ cs, a.messages⟩, false) := by
  induction cs generalizing a with
  | nil => simp [charEvents, runEvents]
  | cons c cs ih =>
      obtain ⟨hq, hn⟩ := h c (by simp)
      have hrest : ∀ d ∈ cs, d ≠ 'q' ∧ d ≠ '\n' := fun d hd => h d (by simp [hd])
      simp [charEvents, runEvents, handleInput, hq, hn]
      have := ih ⟨a.input ++ [c], a.messages⟩ hrest
      simp [charEvents] at this
      rw [this]

/-- C2 witness: pressing 'h' then 'i' from the initial state yields the
buffer "hi", an unchanged empty history and a still-running loop. -/
theorem push_chars_concat_witness :
    (∀ c ∈ (['h', 'i'] : List Char), c ≠ 'q' ∧ c ≠ '\n') ∧
    runEvents App.default (charEvents ['h', 'i']) = (⟨['h', 'i'], []⟩, false) :=
  ⟨by decide, push_chars_concat App.default ['h', 'i'] (by decide)⟩

/-- C3: evaluation of the code at the failing input — when the very first
`events.next()` call reports an input-source failure, the `render` loop
does terminate with that error, but `main` discards the `Result` of
`render(app)` and still returns `Ok(())`, so the process exits
successfully instead of with an error. -/
theorem input_failure_exit_status :
    renderLoop App.default [Except.error ()] = RenderOutcome.errExit ∧
    mainRun [Except.error ()] = Except.ok () := by
  constructor <;> rfl

/-- C4: a 'q' keypress breaks the loop from every state, whatever the
buffer and history hold, and neither the buffer nor the history is mutated
by the quit event or by anything after it. -/
theorem quit_terminates (a : App) (rest : List Event) :
    runEvents a (Event.Input (Key.Char 'q') :: rest) = (a, true) :=
  runEvents_quit a rest

/-- C5: the buffer never contains a newline: the initial buffer is free of
newlines, and every single event-processing step preserves that freedom
(the newline key commits instead of appending). -/
theorem buffer_no_newline :
    '\n' ∉ App.default.input ∧
    ∀ (a : App) (e : Event),
      '\n' ∉ a.input → '\n' ∉ ((handleInput a e).state).input := by
  refine ⟨by simp [App.default], ?_⟩
  intro a e hnl
  match e with
  | .Tick => simpa [handleInput, StepResult.state] using hnl
  | .Input (.Char c) =>
      by_cases hq : c = 'q'
      · simpa [handleInput, hq, StepResult.state] using hnl
      · by_cases hn : c = '\n'
        · simp [handleInput, hq, hn, StepResult.state]
        · simp [handleInput, hq, hn, StepResult.state, hnl, Ne.symm hn]
  | .Input .Backspace =>
      simp only [handleInput, StepResult.state]
      exact fun hmem => hnl (List.dropLast_subset _ hmem)
  | .Input .Left => simpa [handleInput, StepResult.state] using hnl
  | .Input .Right => simpa [handleInput, StepResult.state] using hnl
  | .Input .Up => simpa [handleInput, StepResult.state] using hnl
  | .Input .Down => simpa [handleInput, StepResult.state] using hnl
  | .Input .Home => simpa [handleInput, StepResult.state] using hnl
  | .Input .End => simpa [handleInput, StepResult.state] using hnl
  | .Input .PageUp => simpa [handleInput, StepResult.state] using hnl
  | .Input .PageDown => simpa [handleInput, StepResult.state] using hnl
  | .Input .BackTab => simpa [handleInput, StepResult.state] using hnl
  | .Input .Delete => simpa [handleInput, StepResult.state] using hnl
  | .Input .Insert => simpa [handleInput, StepResult.state] using hnl
  | .Input (.F n) => simpa [handleInput, StepResult.state] using hnl
  | .Input (.Alt c) => simpa [handleInput, StepResult.state] using hnl
  | .Input (.Ctrl c) => simpa [handleInput, StepResult.state] using hnl
  | .Input .Null => simpa [handleInput, StepResult.state] using hnl
  | .Input .Esc => simpa [handleInput, StepResult.state] using hnl

/-- C5 witness: a backspace on the buffer "a" keeps the buffer free of
newlines. -/
theorem buffer_no_newline_witness :
    '\n' ∉ (⟨['a'], []⟩ : App).input ∧
    '\n' ∉ ((handleInput ⟨['a'], []⟩ (Event.Input Key.Backspace)).state).input :=
  ⟨by decide, buffer_no_newline.2 ⟨['a'], []⟩ (Event.Input Key.Backspace) (by decide)⟩

/-- C6: a backspace on an empty buffer is a no-op (the loop continues with
an unchanged state, no error), and a backspace on a non-empty buffer
removes exactly the last character, leaving the history untouched in both
cases. -/
theorem backspace_pop (h : List (List Char)) (s : List Char) (c : Char) :
    handleInput ⟨[], h⟩ (Event.Input Key.Backspace) =
      StepResult.Continue ⟨[], h⟩ ∧
    handleInput ⟨s ++ [c], h⟩ (Event.Input Key.Backspace) =
      StepResult.Continue ⟨s, h⟩ := by
  constructor <;> simp [handleInput]

/-- C7: a Tick event, and any keypress that is neither a character key nor
Backspace, leave the state exactly unchanged (the loop continues). -/
theorem tick_and_unknown_noop (a : App) (k : Key)
    (hc : ∀ c, k ≠ Key.Char c) (hb : k ≠ Key.Backspace) :
    handleInput a Event.Tick = StepResult.Continue a ∧
    handleInput a (Event.Input k) = StepResult.Continue a := by
  refine ⟨rfl, ?_⟩
  match k with
  | .Char c => exact absurd rfl (hc c)
  | .Backspace => exact absurd rfl hb
  | .Left | .Right | .Up | .Down | .Home | .End | .PageUp | .PageDown
  | .BackTab | .Delete | .Insert | .F _ | .Alt _ | .Ctrl _ | .Null | .Esc => rfl

/-- C7 witness: a Tick and an Esc keypress leave the state ⟨"a", ["b"]⟩
unchanged. -/
theorem tick_and_unknown_noop_witness :
    (∀ c, Key.Esc ≠ Key.Char c) ∧ Key.Esc ≠ Key.Backspace ∧
    handleInput ⟨['a'], [['b']]⟩ Event.Tick =
      StepResult.Continue ⟨['a'], [['b']]⟩ ∧
    handleInput ⟨['a'], [['b']]⟩ (Event.Input Key.Esc) =
      StepResult.Continue ⟨['a'], [['b']]⟩ :=
  ⟨fun c h => Key.noConfusion h, by decide,
    (tick_and_unknown_noop ⟨['a'], [['b']]⟩ Key.Esc
      (fun c h => Key.noConfusion h) (by decide)).1,
    (tick_and_unknown_noop ⟨['a'], [['b']]⟩ Key.Esc
      (fun c h => Key.noConfusion h) (by decide)).2⟩

/-- C8: whatever finite sequence of events the two producers place on the
channel, in production order, successive `next()` calls return exactly that
sequence — nothing lost, nothing duplicated, nothing reordered (so in
particular each producer's own stream is delivered in order); the spec's
example sequence Tick, K1, K2, Tick, K3 is returned verbatim. -/
theorem mux_delivers_in_order :
    (∀ es : List Event,
      (Channel.sendAll Channel.empty es).drainAll = es) ∧
    (Channel.sendAll Channel.empty
        [Event.Tick, Event.Input (Key.Char 'a'), Event.Input (Key.Char 'b'),
         Event.Tick, Event.Input (Key.Char 'c')]).drainAll =
      [Event.Tick, Event.Input (Key.Char 'a'), Event.Input (Key.Char 'b'),
       Event.Tick, Event.Input (Key.Char 'c')] := by
  have key : ∀ es : List Event,
      (Channel.sendAll Channel.empty es).drainAll = es := by
    intro es
    rw [Channel.drainAll_eq, Channel.sendAll_queue]
    rfl
  exact ⟨key, key _⟩

/-- The absence of 'q' from the whole application state: from the buffer
and from every history entry. -/
def noQ (a : App) : Prop := 'q' ∉ a.input ∧ ∀ m ∈ a.messages, 'q' ∉ m

theorem noQ_step (a : App) (e : Event) (h : noQ a) :
    noQ ((handleInput a e).state) := by
  obtain ⟨hin, hmsg⟩ := h
  match e with
  | .Tick => exact ⟨hin, hmsg⟩
  | .Input (.Char c) =>
      by_cases hq : c = 'q'
      · simpa [handleInput, hq, StepResult.state] using ⟨hin, hmsg⟩
      · by_cases hn : c = '\n'
        · refine ⟨by simp [handleInput, hq, hn, StepResult.state], ?_⟩
          intro m hm
          simp [handleInput, hq, hn, StepResult.state] at hm
          rcases hm with hm | hm
          · exact hmsg m hm
          · subst hm; exact hin
        · refine ⟨?_, by simpa [handleInput, hq, hn, StepResult.state] using hmsg⟩
          simp [handleInput, hq, hn, StepResult.state]
          exact ⟨hin, Ne.symm hq⟩
  | .Input .Backspace =>
      refine ⟨?_, by simpa [handleInput, StepResult.state] using hmsg⟩
      simp only [handleInput, StepResult.state]
      exact fun hmem => hin (List.dropLast_subset _ hmem)
  | .Input .Left | .Input .Right | .Input .Up | .Input .Down
  | .Input .Home | .Input .End | .Input .PageUp | .Input .PageDown
  | .Input .BackTab | .Input .Delete | .Input .Insert | .Input (.F _)
  | .Input (.Alt _) | .Input (.Ctrl _) | .Input .Null | .Input .Esc =>
      exact ⟨hin, hmsg⟩

theorem noQ_runEvents (a : App) (es : List Event) (h : noQ a) :
    noQ (runEvents a es).1 := by
  induction es generalizing a with
  | nil => exact h
  | cons e es ih =>
      have hstep := noQ_step a e h
      simp only [runEvents]
      match hh : handleInput a e with
      | .Continue a2 =>
          apply ih
          simpa [hh, StepResult.state] using hstep
      | .Break a2 =>
          simpa [hh, StepResult.state] using hstep

/-- C9: in every state reachable from the initial state by processing any
finite sequence of events, the character 'q' occurs neither in the buffer
nor in any history entry — the quit arm catches the 'q' keypress before
the generic character arm could append it. -/
theorem no_q_ever_stored (es : List Event) :
    noQ (runEvents App.default es).1 :=
  noQ_runEvents App.default es ⟨by simp [App.default], by simp [App.default]⟩

/-- C10: when 'q' arrives while the buffer is non-empty, the pending
buffer content is discarded: the history at loop exit is exactly the
history as of the last commit, with nothing appended by the quit or after
it. -/
theorem quit_discards_pending (a : App) (rest : List Event)
    (h : a.input ≠ []) :
    (runEvents a (Event.Input (Key.Char 'q') :: rest)).1.messages =
      a.messages := by
  rw [runEvents_quit]

/-- C10 witness: quitting with buffer "h" and history ["x"] leaves the
history exactly ["x"]. -/
theorem quit_discards_pending_witness :
    (['h'] : List Char) ≠ [] ∧
    (runEvents ⟨['h'], [['x']]⟩
        [Event.Input (Key.Char 'q')]).1.messages = [['x']] :=
  ⟨by decide, quit_discards_pending ⟨['h'], [['x']]⟩ [] (by decide)⟩
